import Mathlib

/-!
Verification of the stable-diffusion-cpp-adapter content-normalization and
prompt/image extraction logic, shallowly embedded from the Go sources
(`src/main.go`, the lenient variant, and `src/unnamed/part_000`, the strict
variant).  Go strings are modelled as Lean `String`s (sequences of
characters); Go byte slices as `List Nat` with every element below 256;
fallible operations return `Option` or `Except`.
-/

namespace SDAdapter

/-- JSON values, the input domain of `Message.UnmarshalJSON`.  Numbers are
modelled as integers; numeric precision plays no role in the claims. -/
inductive Json where
  | null : Json
  | bool (b : Bool) : Json
  | num (n : Int) : Json
  | str (s : String) : Json
  | arr (elems : List Json) : Json
  | obj (fields : List (String × Json)) : Json
deriving Repr

/-- Go struct `ImagePart { URL string }`. -/
structure ImagePart where
  url : String
deriving DecidableEq, Repr

/-- Go struct `ContentPart { Type string; Text string; ImageURL *ImagePart }`.
The nil-able pointer field is an `Option`. -/
structure ContentPart where
  type : String
  text : String
  imageURL : Option ImagePart
deriving DecidableEq, Repr

/-- Go struct `Message { Role string; Content []ContentPart }`. -/
structure Message where
  role : String
  content : List ContentPart
deriving DecidableEq, Repr

/-- Field lookup in a decoded JSON object.  Go's `encoding/json` lets the
last occurrence of a duplicated key win. -/
def lookupLast (fields : List (String × Json)) (k : String) : Option Json :=
  ((fields.filter (fun p => p.1 == k)).getLast?).map (fun p => p.2)

/-- Model of `json.Unmarshal` into a Go `string` target: a JSON string
succeeds, JSON `null` is a no-op leaving the zero value `""`, and every
other shape is a type error. -/
def decodeStr : Json → Option String
  | Json.str s => some s
  | Json.null => some ""
  | _ => none

/-- Model of `json.Unmarshal` into the pointer field `ImageURL *ImagePart`:
`null` yields a nil pointer, an object decodes the `url` field (absent or
`null` leaves the zero value), anything else is a type error. -/
def decodeImageOpt : Json → Option (Option ImagePart)
  | Json.null => some none
  | Json.obj fs =>
      match lookupLast fs "url" with
      | none => some (some { url := "" })
      | some v => (decodeStr v).map (fun s => some { url := s })
  | _ => none

/-- Model of `json.Unmarshal` of one array element into `ContentPart`:
`null` is a no-op leaving the zero value, an object decodes the three
tagged fields (absent fields keep their zero values, ill-typed fields are
errors, unknown fields are ignored), anything else is a type error. -/
def decodeContentPart : Json → Option ContentPart
  | Json.null => some { type := "", text := "", imageURL := none }
  | Json.obj fs => do
      let t ← match lookupLast fs "type" with
        | none => some ""
        | some v => decodeStr v
      let x ← match lookupLast fs "text" with
        | none => some ""
        | some v => decodeStr v
      let im ← match lookupLast fs "image_url" with
        | none => some none
        | some v => decodeImageOpt v
      some { type := t, text := x, imageURL := im }
  | _ => none

/-- Element-wise decoding of a JSON array into `[]ContentPart`: every
element must decode. -/
def decodePartsList : List Json → Option (List ContentPart)
  | [] => some []
  | j :: js =>
      match decodeContentPart j, decodePartsList js with
      | some p, some ps => some (p :: ps)
      | _, _ => none

/-- Model of `json.Unmarshal(aux.Content, &parts)` with `parts : []ContentPart`:
`null` is accepted (leaving a nil slice, observed as the empty list), an
array decodes element-wise, and every other shape is a type error. -/
def decodeParts : Json → Option (List ContentPart)
  | Json.null => some []
  | Json.arr es => decodePartsList es
  | _ => none

/-- The error message of `Message.UnmarshalJSON` when neither content
interpretation succeeds. -/
def malformedContentMsg : String := "invalid content format in Message"

/-- Content normalization, `Message.UnmarshalJSON` lines 50-62 of
`src/main.go` (identically lines 47-61 of the strict variant): the raw
`content` value (`none` when the key is absent, which makes both decoding
attempts fail) is first decoded as a structured part list; on failure it is
decoded as a plain string and wrapped as a single text part; if both fail
the unmarshaller errors out. -/
def normalizeContent : Option Json → Except String (List ContentPart)
  | none => Except.error malformedContentMsg
  | some j =>
      match decodeParts j with
      | some parts => Except.ok parts
      | none =>
          match decodeStr j with
          | some t => Except.ok [{ type := "text", text := t, imageURL := none }]
          | none => Except.error malformedContentMsg

example : normalizeContent (some (Json.str "a red cat")) =
    Except.ok [{ type := "text", text := "a red cat", imageURL := none }] := by
  rfl

example : normalizeContent (some (Json.arr [])) = Except.ok [] := by rfl

example : normalizeContent (some (Json.bool true)) =
    Except.error malformedContentMsg := by rfl

example : normalizeContent (some (Json.arr [Json.obj [("type", Json.str "text"), ("text", Json.str "hi")]])) =
    Except.ok [{ type := "text", text := "hi", imageURL := none }] := by rfl

/-- Model of Go's `unicode.IsSpace`, the character class used by
`strings.TrimSpace`. -/
def goIsSpace (c : Char) : Bool :=
  c == ' ' || c == Char.ofNat 9 || c == Char.ofNat 10 || c == Char.ofNat 11 ||
    c == Char.ofNat 12 || c == Char.ofNat 13 || c == Char.ofNat 133 ||
    c == Char.ofNat 160 || c == Char.ofNat 5760 ||
    (8192 ≤ c.toNat && c.toNat ≤ 8202) || c == Char.ofNat 8232 ||
    c == Char.ofNat 8233 || c == Char.ofNat 8239 || c == Char.ofNat 8287 ||
    c == Char.ofNat 12288

/-- Character-list core of `strings.TrimSpace`: drop trailing and leading
space characters (the two trims commute, so the order of the two passes is
immaterial). -/
def trimSpaceList (l : List Char) : List Char :=
  ((l.reverse.dropWhile goIsSpace).reverse).dropWhile goIsSpace

/-- Model of Go's `strings.TrimSpace`. -/
def trimSpace (s : String) : String :=
  String.mk (trimSpaceList s.data)

example : trimSpace "  a red cat " = "a red cat" := by rfl

example : trimSpace "" = "" := by rfl

/-- The standard base64 alphabet of `encoding/base64.StdEncoding`. -/
def b64Alphabet : List Char :=
  ("ABCDEFGHIJKLMNOPQRSTUVWXYZabcdefghijklmnopqrstuvwxyz0123456789+/").data

/-- The character encoding a 6-bit value. -/
def b64Char (n : Nat) : Char := b64Alphabet.getD n 'A'

/-- The 6-bit value of an alphabet character, `none` for characters outside
the alphabet (a `CorruptInputError` in Go). -/
def b64Index (c : Char) : Option Nat :=
  b64Alphabet.findIdx? (fun a => a == c)

/-- Model of `base64.StdEncoding.EncodeToString` at character level: groups
of three bytes become four alphabet characters; a final group of one or two
bytes is padded with `=`. -/
def encodeGroups : List Nat → List Char
  | [] => []
  | [b1] => [b64Char (b1 / 4), b64Char (b1 % 4 * 16), '=', '=']
  | [b1, b2] => [b64Char (b1 / 4), b64Char (b1 % 4 * 16 + b2 / 16), b64Char (b2 % 16 * 4), '=']
  | b1 :: b2 :: b3 :: rest =>
      b64Char (b1 / 4) :: b64Char (b1 % 4 * 16 + b2 / 16) ::
        b64Char (b2 % 16 * 4 + b3 / 64) :: b64Char (b3 % 64) :: encodeGroups rest

/-- Model of `base64.StdEncoding.EncodeToString`. -/
def encodeToStr (bs : List Nat) : String := String.mk (encodeGroups bs)

/-- Decoding of a newline-free character stream by
`base64.StdEncoding.Decode`: quanta of four characters, `=`-padding allowed
only at the end, any character outside the alphabet (or a stray quantum) is
an error; trailing bits beyond the encoded bytes are ignored, as Go's
non-strict decoder does. -/
def decodeClean : List Char → Option (List Nat)
  | [] => some []
  | c1 :: c2 :: c3 :: c4 :: rest =>
      match b64Index c1, b64Index c2 with
      | some i1, some i2 =>
          if c3 = '=' then
            if c4 = '=' ∧ rest = [] then some [i1 * 4 + i2 / 16] else none
          else
            match b64Index c3 with
            | some i3 =>
                if c4 = '=' then
                  if rest = [] then some [i1 * 4 + i2 / 16, i2 % 16 * 16 + i3 / 4]
                  else none
                else
                  match b64Index c4 with
                  | some i4 =>
                      (decodeClean rest).map
                        (fun ds => (i1 * 4 + i2 / 16) :: (i2 % 16 * 16 + i3 / 4) ::
                          (i3 % 4 * 64 + i4) :: ds)
                  | none => none
            | none => none
      | _, _ => none
  | _ => none

/-- Characters that are not carriage return or line feed, the characters
`base64.StdEncoding.DecodeString` keeps. -/
def notCRLF (c : Char) : Bool := !(c == Char.ofNat 13 || c == Char.ofNat 10)

/-- Model of `base64.StdEncoding.DecodeString`: carriage returns and line
feeds are ignored, then the stream is decoded in quanta of four. -/
def decodeB64Str (s : String) : Option (List Nat) :=
  decodeClean (s.data.filter notCRLF)

example : decodeB64Str "QUJD" = some [65, 66, 67] := by rfl

example : decodeB64Str "" = some [] := by rfl

example : decodeB64Str "QQ==" = some [65] := by rfl

example : decodeB64Str "QUI=" = some [65, 66] := by rfl

example : decodeB64Str "####" = none := by rfl

example : decodeB64Str "QUJ" = none := by rfl

example : encodeToStr [65, 66, 67] = "QUJD" := by rfl

example : encodeToStr [255] = "/w==" := by rfl

/-- Model of Go's `strings.Index` on character lists: the first position at
which `sub` occurs in `s`, `none` when it does not occur (Go returns -1). -/
def indexOfSub : List Char → List Char → Option Nat
  | [], sub => if sub.isPrefixOf ([] : List Char) then some 0 else none
  | c :: t, sub =>
      if sub.isPrefixOf (c :: t) then some 0
      else (indexOfSub t sub).map (fun n => n + 1)

example : indexOfSub ("abcbase64,xyz").data ("base64,").data = some 3 := by rfl

example : indexOfSub ("abc").data ("base64,").data = none := by rfl

/-- The payload a data URI carries after the first `base64,` marker:
`strings.Index(urlStr, "base64,")` followed by the slice
`urlStr[idx+len("base64,"):]`; `none` when the marker is absent (Go's
`idx == -1`, which makes the extractors skip the part). -/
def stripB64 (u : String) : Option String :=
  (indexOfSub u.data ("base64,").data).map (fun idx => String.mk (u.data.drop (idx + 7)))

example : stripB64 "data:image/png;base64,QUJD" = some "QUJD" := by rfl

example : stripB64 "data:image/png;hello" = none := by rfl

/-- Result triple of `extractPromptAndImage` in either variant, mirroring
Go's `(string, []byte, error)` return.  A nil byte slice and an empty one
are indistinguishable to every observer in the source (`len(...) == 0`),
so both are the empty list. -/
structure ExtractionResult where
  prompt : String
  imageData : List Nat
  err : Option String
deriving DecidableEq, Repr

/-- One content part of the strict extractor's loop (`src/unnamed/part_000`
lines 107-125), processing a part of a user message from the accumulated
`(prompt, imageData)` state: text is appended with a trailing space, a
`data:image/` URI with a `base64,` marker is decoded (decode failure aborts
the whole extraction), and everything else is skipped. -/
def strictStep (st : String × List Nat) (p : ContentPart) : Except String (String × List Nat) :=
  if p.type = "text" then Except.ok (st.1 ++ p.text ++ " ", st.2)
  else if p.type = "image_url" then
    match p.imageURL with
    | none => Except.ok st
    | some ip =>
        if ("data:image/").data.isPrefixOf ip.url.data then
          match stripB64 ip.url with
          | none => Except.ok st
          | some raw =>
              match decodeB64Str raw with
              | none => Except.error "invalid base64 image"
              | some data => Except.ok (st.1, data)
        else Except.ok st
  else Except.ok st

/-- One message of the strict extractor's loop: non-user messages are
skipped entirely (`if msg.Role != "user" { continue }`). -/
def strictMsg (st : String × List Nat) (msg : Message) : Except String (String × List Nat) :=
  if msg.role = "user" then msg.content.foldlM strictStep st else Except.ok st

/-- The strict variant of `extractPromptAndImage`
(`src/unnamed/part_000` lines 99-128): fold the messages from the empty
state; on success the prompt is trimmed, on error Go returns
`("", nil, err)`. -/
def extractStrict (messages : List Message) : ExtractionResult :=
  match messages.foldlM strictMsg ("", ([] : List Nat)) with
  | Except.ok st => { prompt := trimSpace st.1, imageData := st.2, err := none }
  | Except.error e => { prompt := "", imageData := [], err := some e }

example :
    extractStrict [{ role := "user", content := [{ type := "text", text := "a red cat", imageURL := none }] }] =
      { prompt := "a red cat", imageData := [], err := none } := by rfl

example :
    extractStrict
      [{ role := "user",
         content := [{ type := "text", text := "edit this", imageURL := none },
           { type := "image_url", text := "", imageURL := some { url := "data:image/png;base64,QUJD" } }] }] =
      { prompt := "edit this", imageData := [65, 66, 67], err := none } := by rfl

example :
    extractStrict
      [{ role := "user",
         content := [{ type := "text", text := "hi", imageURL := none },
           { type := "image_url", text := "", imageURL := some { url := "data:image/png;base64,####" } }] }] =
      { prompt := "", imageData := [], err := some "invalid base64 image" } := by rfl

/-- Scan state of the lenient extractor (`src/main.go` lines 92-94). -/
structure LenState where
  lastText : String
  lastImageData : List Nat
  lastImageURL : String
deriving DecidableEq, Repr

/-- Outcome of the best-effort HTTP GET the lenient extractor performs
(`src/main.go` lines 149-163), abstracting the network: a transport error
(`client.Get` fails), or a response carrying a status code, a status text
and a body whose read may itself fail. -/
inductive FetchOutcome where
  | netErr (msg : String) : FetchOutcome
  | httpResp (statusCode : Nat) (statusText : String) (body : Except String (List Nat)) : FetchOutcome

/-- One content part of the lenient extractor's scan (`src/main.go` lines
98-132), parameterized by `pngScan`, the list of matches that the compiled
regular expression `(?:https?://\S+|\b/[^ \n\t\r]+)\.png\b` returns on a
text (`FindAllString`, in order).  A text part updates `lastText` only for
role `user` and its last `.png` match (from any role) becomes the candidate
URL; an `image_url` part with a decodable `base64,` data URI overwrites
`lastImageData`, a malformed payload is logged and skipped, a non-data URI
ending in `.png` becomes the candidate URL. -/
def lenientPart (pngScan : String → List String) (role : String)
    (st : LenState) (p : ContentPart) : LenState :=
  if p.type = "text" then
    let st1 := if role = "user" then { st with lastText := p.text } else st
    let ms := pngScan p.text
    if ms.length > 0 then { st1 with lastImageURL := ms.getLastD "" } else st1
  else if p.type = "image_url" then
    match p.imageURL with
    | none => st
    | some ip =>
        if ("data:image/").data.isPrefixOf ip.url.data then
          match stripB64 ip.url with
          | none => st
          | some raw =>
              match decodeB64Str raw with
              | none => st
              | some data => { st with lastImageData := data }
        else if (".png").data.reverse.isPrefixOf ip.url.data.reverse then
          { st with lastImageURL := ip.url }
        else st
  else st

/-- The scan phase of the lenient extractor: fold every part of every
message through `lenientPart` from the zero state. -/
def lenScan (pngScan : String → List String) (messages : List Message) : LenState :=
  messages.foldl
    (fun st msg => msg.content.foldl (lenientPart pngScan msg.role) st)
    { lastText := "", lastImageData := [], lastImageURL := "" }

/-- The fixed origin against which a bare `/...` path is resolved
(`src/main.go` line 139). -/
def generatedBase : String := "https://web.ai.ispring.lan/generated"

/-- The URL the lenient extractor would fetch: a candidate starting with
`/` is prefixed with the fixed origin. -/
def finalFetchURL (lastImageURL : String) : String :=
  if ("/").data.isPrefixOf lastImageURL.data then generatedBase ++ lastImageURL
  else lastImageURL

/-- The fetch phase of the lenient extractor (`src/main.go` lines 135-167),
parameterized by `parseScheme` — the scheme `url.Parse` reports for the
final URL (`none` on a parse error) — and by the network `fetch`.  The
fetch runs only when no inline bytes were found and a candidate URL exists
and the URL parses with a non-empty scheme; a transport error, a non-200
status or a body-read error abort with the trimmed prompt still returned;
otherwise the body bytes become the image. -/
def lenientFinish (parseScheme : String → Option String) (fetch : String → FetchOutcome)
    (st : LenState) : ExtractionResult :=
  if st.lastImageData.length = 0 ∧ st.lastImageURL ≠ "" then
    match parseScheme (finalFetchURL st.lastImageURL) with
    | none => { prompt := trimSpace st.lastText, imageData := st.lastImageData, err := none }
    | some scheme =>
        if scheme ≠ "" then
          match fetch (finalFetchURL st.lastImageURL) with
          | FetchOutcome.netErr m =>
              { prompt := trimSpace st.lastText, imageData := [],
                err := some ("failed to fetch image from URL: " ++ m) }
          | FetchOutcome.httpResp code stext body =>
              if code ≠ 200 then
                { prompt := trimSpace st.lastText, imageData := [],
                  err := some ("image URL returned status: " ++ stext) }
              else
                match body with
                | Except.error m =>
                    { prompt := trimSpace st.lastText, imageData := [],
                      err := some ("failed to read image data from response: " ++ m) }
                | Except.ok bytes =>
                    { prompt := trimSpace st.lastText, imageData := bytes, err := none }
        else { prompt := trimSpace st.lastText, imageData := st.lastImageData, err := none }
  else { prompt := trimSpace st.lastText, imageData := st.lastImageData, err := none }

/-- The lenient variant of `extractPromptAndImage` (`src/main.go` lines
91-168): the scan phase followed by the fetch phase. -/
def extractLenient (pngScan : String → List String) (parseScheme : String → Option String)
    (fetch : String → FetchOutcome) (messages : List Message) : ExtractionResult :=
  lenientFinish parseScheme fetch (lenScan pngScan messages)

/-- The extraction-facing fragment of `handleChatCompletion` (`src/main.go`
lines 193-211): an extraction error is answered with HTTP 400, an empty
prompt with HTTP 400, and otherwise the request proceeds to generation
(`none`). -/
def handleExtraction (r : ExtractionResult) : Option Nat :=
  match r.err with
  | some _ => some 400
  | none => if r.prompt = "" then some 400 else none

example :
    extractLenient (fun _ => []) (fun _ => none) (fun _ => FetchOutcome.netErr "x")
      [{ role := "user", content := [{ type := "text", text := "cat", imageURL := none }] },
       { role := "assistant", content := [{ type := "text", text := "dog", imageURL := none }] }] =
      { prompt := "cat", imageData := [], err := none } := by rfl

example :
    extractLenient (fun _ => []) (fun _ => some "https") (fun _ => FetchOutcome.netErr "boom")
      [{ role := "user",
         content := [{ type := "text", text := "grow", imageURL := none },
           { type := "image_url", text := "", imageURL := some { url := "https://h/x.png" } }] }] =
      { prompt := "grow", imageData := [],
        err := some "failed to fetch image from URL: boom" } := by rfl

/-! ### Base64 lemmas -/

theorem b64Index_b64Char : ∀ i, i < 64 → b64Index (b64Char i) = some i := by decide

theorem b64Char_ne_pad : ∀ i, i < 64 → ¬(b64Char i = '=') := by decide

theorem b64Char_notCRLF : ∀ i, i < 64 → notCRLF (b64Char i) = true := by decide

theorem pad_notCRLF : notCRLF '=' = true := by decide

/-- Decoding inverts encoding on newline-free streams: the core of the
base64 round trip. -/
theorem decodeClean_encodeGroups (bs : List Nat) (h : ∀ b ∈ bs, b < 256) :
    decodeClean (encodeGroups bs) = some bs := by
  match bs with
  | [] => rfl
  | [b1] =>
    have hb1 : b1 < 256 := h b1 (by simp)
    have h1 : b1 / 4 < 64 := by omega
    have h2 : b1 % 4 * 16 < 64 := by omega
    simp only [encodeGroups, decodeClean, b64Index_b64Char _ h1, b64Index_b64Char _ h2]
    simp
    omega
  | [b1, b2] =>
    have hb1 : b1 < 256 := h b1 (by simp)
    have hb2 : b2 < 256 := h b2 (by simp)
    have h1 : b1 / 4 < 64 := by omega
    have h2 : b1 % 4 * 16 + b2 / 16 < 64 := by omega
    have h3 : b2 % 16 * 4 < 64 := by omega
    simp only [encodeGroups, decodeClean, b64Index_b64Char _ h1, b64Index_b64Char _ h2,
      if_neg (b64Char_ne_pad _ h3), b64Index_b64Char _ h3]
    simp
    constructor
    · omega
    · omega
  | [b1, b2, b3] =>
    have hb1 : b1 < 256 := h b1 (by simp)
    have hb2 : b2 < 256 := h b2 (by simp)
    have hb3 : b3 < 256 := h b3 (by simp)
    have h1 : b1 / 4 < 64 := by omega
    have h2 : b1 % 4 * 16 + b2 / 16 < 64 := by omega
    have h3 : b2 % 16 * 4 + b3 / 64 < 64 := by omega
    have h4 : b3 % 64 < 64 := by omega
    simp only [encodeGroups, decodeClean, b64Index_b64Char _ h1, b64Index_b64Char _ h2,
      b64Index_b64Char _ h3, b64Index_b64Char _ h4,
      if_neg (b64Char_ne_pad _ h3), if_neg (b64Char_ne_pad _ h4)]
    simp
    refine ⟨by omega, by omega, by omega⟩
  | b1 :: b2 :: b3 :: b4 :: rest2 =>
    have hb1 : b1 < 256 := h b1 (by simp)
    have hb2 : b2 < 256 := h b2 (by simp)
    have hb3 : b3 < 256 := h b3 (by simp)
    have h1 : b1 / 4 < 64 := by omega
    have h2 : b1 % 4 * 16 + b2 / 16 < 64 := by omega
    have h3 : b2 % 16 * 4 + b3 / 64 < 64 := by omega
    have h4 : b3 % 64 < 64 := by omega
    have ih : decodeClean (encodeGroups (b4 :: rest2)) = some (b4 :: rest2) :=
      decodeClean_encodeGroups (b4 :: rest2) (by intro b hb; exact h b (by simp at hb ⊢; tauto))
    have henc : encodeGroups (b1 :: b2 :: b3 :: b4 :: rest2) =
        b64Char (b1 / 4) :: b64Char (b1 % 4 * 16 + b2 / 16) ::
          b64Char (b2 % 16 * 4 + b3 / 64) :: b64Char (b3 % 64) ::
          encodeGroups (b4 :: rest2) := rfl
    rw [henc]
    simp only [decodeClean, b64Index_b64Char _ h1, b64Index_b64Char _ h2,
      b64Index_b64Char _ h3, b64Index_b64Char _ h4,
      if_neg (b64Char_ne_pad _ h3), if_neg (b64Char_ne_pad _ h4), ih]
    simp
    refine ⟨by omega, by omega, by omega⟩

/-- Encoder output never contains carriage returns or line feeds. -/
theorem encodeGroups_notCRLF (bs : List Nat) (h : ∀ b ∈ bs, b < 256) :
    ∀ c ∈ encodeGroups bs, notCRLF c = true := by
  match bs with
  | [] => intro c hc; simp [encodeGroups] at hc
  | [b1] =>
    have hb1 : b1 < 256 := h b1 (by simp)
    intro c hc
    simp only [encodeGroups] at hc
    simp at hc
    rcases hc with rfl | rfl | rfl
    · exact b64Char_notCRLF _ (by omega)
    · exact b64Char_notCRLF _ (by omega)
    · exact pad_notCRLF
  | [b1, b2] =>
    have hb1 : b1 < 256 := h b1 (by simp)
    have hb2 : b2 < 256 := h b2 (by simp)
    intro c hc
    simp only [encodeGroups] at hc
    simp at hc
    rcases hc with rfl | rfl | rfl | rfl
    · exact b64Char_notCRLF _ (by omega)
    · exact b64Char_notCRLF _ (by omega)
    · exact b64Char_notCRLF _ (by omega)
    · exact pad_notCRLF
  | b1 :: b2 :: b3 :: rest =>
    have hb1 : b1 < 256 := h b1 (by simp)
    have hb2 : b2 < 256 := h b2 (by simp)
    have hb3 : b3 < 256 := h b3 (by simp)
    have ih : ∀ c ∈ encodeGroups rest, notCRLF c = true :=
      encodeGroups_notCRLF rest (by intro b hb; exact h b (by simp; tauto))
    intro c hc
    have henc : encodeGroups (b1 :: b2 :: b3 :: rest) =
        b64Char (b1 / 4) :: b64Char (b1 % 4 * 16 + b2 / 16) ::
          b64Char (b2 % 16 * 4 + b3 / 64) :: b64Char (b3 % 64) ::
          encodeGroups rest := by
      cases rest <;> rfl
    rw [henc] at hc
    simp at hc
    rcases hc with rfl | rfl | rfl | rfl | hmem
    · exact b64Char_notCRLF _ (by omega)
    · exact b64Char_notCRLF _ (by omega)
    · exact b64Char_notCRLF _ (by omega)
    · exact b64Char_notCRLF _ (by omega)
    · exact ih c hmem

/-- Round trip at the string level: decoding an encoded byte sequence gives
the bytes back. -/
theorem decodeB64Str_encodeToStr (bs : List Nat) (h : ∀ b ∈ bs, b < 256) :
    decodeB64Str (encodeToStr bs) = some bs := by
  unfold decodeB64Str encodeToStr
  have hm : (String.mk (encodeGroups bs)).data = encodeGroups bs := rfl
  rw [hm, List.filter_eq_self.mpr (encodeGroups_notCRLF bs h), decodeClean_encodeGroups bs h]

/-! ### Data-URI lemmas -/

/-- A `png` data URI with inline base64 payload, the shape the spec's
round-trip property encodes image bytes into. -/
def dataURI (bs : List Nat) : String := "data:image/png;base64," ++ encodeToStr bs

theorem dataURI_pre (s : String) :
    ("data:image/").data.isPrefixOf ("data:image/png;base64," ++ s).data = true := by
  rw [String.data_append]
  simp [List.isPrefixOf]

theorem dataURI_idx (s : String) :
    indexOfSub ("data:image/png;base64," ++ s).data ("base64,").data = some 15 := by
  rw [String.data_append]
  simp [indexOfSub, List.isPrefixOf]

theorem dataURI_strip (s : String) :
    stripB64 ("data:image/png;base64," ++ s) = some s := by
  unfold stripB64
  rw [dataURI_idx]
  show some (String.mk (("data:image/png;base64," ++ s).data.drop (15 + 7))) = some s
  have hd : (("data:image/png;base64," ++ s).data.drop (15 + 7)) = s.data := by
    rw [String.data_append]
    rfl
  rw [hd]

/-! ### Trim lemmas -/

theorem goIsSpace_space : goIsSpace ' ' = true := by decide

/-- Appending a final space does not change the trimmed value. -/
theorem trimSpaceList_append_space (l : List Char) :
    trimSpaceList (l ++ [' ']) = trimSpaceList l := by
  unfold trimSpaceList
  rw [List.reverse_append]
  simp [List.dropWhile_cons_of_pos goIsSpace_space]

/-- String-level version of `trimSpaceList_append_space`. -/
theorem trimSpace_append_space (s : String) : trimSpace (s ++ " ") = trimSpace s := by
  unfold trimSpace
  rw [String.data_append]
  have hsp : (" ").data = [' '] := rfl
  rw [hsp, trimSpaceList_append_space]

/-! ### Strict-extractor prompt lemmas -/

/-- Texts of the text parts of a content list, in order. -/
def textsOf (parts : List ContentPart) : List String :=
  (parts.filter (fun p => p.type == "text")).map (fun p => p.text)

/-- Texts of all text parts of the user-role messages, in order: the parts
the strict extractor concatenates. -/
def userTexts : List Message → List String
  | [] => []
  | m :: ms => (if m.role = "user" then textsOf m.content else []) ++ userTexts ms

/-- The raw concatenation the strict loop builds: each text followed by one
space. -/
def codeJoin : List String → String
  | [] => ""
  | t :: rest => t ++ " " ++ codeJoin rest

/-- Space-separated concatenation, the spec's phrasing of the strict
prompt: texts joined by single spaces, no trailing space. -/
def spaceJoin : List String → String
  | [] => ""
  | [t] => t
  | t :: rest => t ++ " " ++ spaceJoin rest

theorem codeJoin_append (a b : List String) :
    codeJoin (a ++ b) = codeJoin a ++ codeJoin b := by
  induction a with
  | nil => simp [codeJoin, String.empty_append]
  | cons t rest ih =>
      rw [show (t :: rest) ++ b = t :: (rest ++ b) from rfl]
      rw [show codeJoin (t :: (rest ++ b)) = t ++ " " ++ codeJoin (rest ++ b) from rfl]
      rw [show codeJoin (t :: rest) = t ++ " " ++ codeJoin rest from rfl]
      rw [ih]
      simp [String.append_assoc]

theorem codeJoin_eq_spaceJoin_space (ts : List String) (h : ts ≠ []) :
    codeJoin ts = spaceJoin ts ++ " " := by
  match ts with
  | [t] => simp [codeJoin, spaceJoin, String.append_empty]
  | t :: r :: rs =>
      have ih : codeJoin (r :: rs) = spaceJoin (r :: rs) ++ " " :=
        codeJoin_eq_spaceJoin_space (r :: rs) (by simp)
      rw [show codeJoin (t :: r :: rs) = t ++ " " ++ codeJoin (r :: rs) from rfl]
      rw [show spaceJoin (t :: r :: rs) = t ++ " " ++ spaceJoin (r :: rs) from rfl]
      rw [ih]
      simp [String.append_assoc]

/-- Trimming erases the difference between the loop's trailing-space
concatenation and the spec's space-separated concatenation. -/
theorem trimSpace_codeJoin (ts : List String) :
    trimSpace (codeJoin ts) = trimSpace (spaceJoin ts) := by
  cases hts : ts with
  | nil => rfl
  | cons t rest =>
      rw [codeJoin_eq_spaceJoin_space (t :: rest) (by simp), trimSpace_append_space]

theorem strictStep_ok_prompt (st : String × List Nat) (p : ContentPart)
    (st2 : String × List Nat) (h : strictStep st p = Except.ok st2) :
    st2.1 = if p.type = "text" then st.1 ++ p.text ++ " " else st.1 := by
  unfold strictStep at h
  repeat' split at h
  all_goals try cases h
  all_goals simp [*]

theorem foldParts_prompt (parts : List ContentPart) (st st2 : String × List Nat)
    (h : parts.foldlM strictStep st = Except.ok st2) :
    st2.1 = st.1 ++ codeJoin (textsOf parts) := by
  induction parts generalizing st with
  | nil =>
      simp only [List.foldlM_nil] at h
      cases h
      simp [textsOf, codeJoin, String.append_empty]
  | cons p rest ih =>
      rw [List.foldlM_cons] at h
      match hs : strictStep st p with
      | Except.error e => rw [hs] at h; cases h
      | Except.ok st1 =>
          rw [hs] at h
          have hbind : (Except.ok st1 >>= fun b => rest.foldlM strictStep b) =
              rest.foldlM strictStep st1 := rfl
          rw [hbind] at h
          have hrec := ih st1 h
          have hp := strictStep_ok_prompt st p st1 hs
          by_cases ht : p.type = "text"
          · have htex : textsOf (p :: rest) = p.text :: textsOf rest := by
              simp [textsOf, ht]
            rw [htex]
            simp only [codeJoin]
            rw [hrec, hp, if_pos ht]
            simp [String.append_assoc]
          · have htex : textsOf (p :: rest) = textsOf rest := by
              simp [textsOf, ht]
            rw [htex, hrec, hp, if_neg ht]

theorem foldMsgs_prompt (msgs : List Message) (st st2 : String × List Nat)
    (h : msgs.foldlM strictMsg st = Except.ok st2) :
    st2.1 = st.1 ++ codeJoin (userTexts msgs) := by
  induction msgs generalizing st with
  | nil =>
      simp only [List.foldlM_nil] at h
      cases h
      simp [userTexts, codeJoin, String.append_empty]
  | cons m ms ih =>
      rw [List.foldlM_cons] at h
      match hs : strictMsg st m with
      | Except.error e => rw [hs] at h; cases h
      | Except.ok st1 =>
          rw [hs] at h
          have hbind : (Except.ok st1 >>= fun b => ms.foldlM strictMsg b) =
              ms.foldlM strictMsg st1 := rfl
          rw [hbind] at h
          have hrec := ih st1 h
          unfold strictMsg at hs
          by_cases hr : m.role = "user"
          · rw [if_pos hr] at hs
            have hp := foldParts_prompt m.content st st1 hs
            rw [hrec, hp]
            simp only [userTexts, if_pos hr, codeJoin_append, String.append_assoc]
          · rw [if_neg hr] at hs
            cases hs
            rw [hrec]
            simp only [userTexts, if_neg hr, List.nil_append]

/-- The strict prompt, on success, is the trimmed space-separated
concatenation of the user messages' texts. -/
theorem extractStrict_prompt (msgs : List Message) (st : String × List Nat)
    (h : msgs.foldlM strictMsg ("", ([] : List Nat)) = Except.ok st) :
    trimSpace st.1 = trimSpace (spaceJoin (userTexts msgs)) := by
  have hp := foldMsgs_prompt msgs ("", ([] : List Nat)) st h
  rw [hp]
  have he : ("" : String) ++ codeJoin (userTexts msgs) = codeJoin (userTexts msgs) :=
    String.empty_append _
  rw [he, trimSpace_codeJoin]

/-! ### Strict-extractor image lemmas -/

/-- An `image_url` content part carrying the given URL. -/
def imagePartOf (u : String) : ContentPart :=
  { type := "image_url", text := "", imageURL := some { url := u } }

theorem strictStep_dataURI (st : String × List Nat) (bs : List Nat)
    (h : ∀ b ∈ bs, b < 256) :
    strictStep st (imagePartOf (dataURI bs)) = Except.ok (st.1, bs) := by
  have hpre := dataURI_pre (encodeToStr bs)
  have hstrip := dataURI_strip (encodeToStr bs)
  have hdec := decodeB64Str_encodeToStr bs h
  simp only [strictStep, imagePartOf, dataURI] at hpre hstrip ⊢
  simp [hpre, hstrip, hdec]

theorem foldImgs_last (bss : List (List Nat)) (st : String × List Nat)
    (h : ∀ bs ∈ bss, ∀ b ∈ bs, b < 256) :
    (bss.map (fun bs => imagePartOf (dataURI bs))).foldlM strictStep st =
      Except.ok (st.1, bss.getLastD st.2) := by
  induction bss generalizing st with
  | nil => rfl
  | cons bs rest ih =>
      have hbs : ∀ b ∈ bs, b < 256 := h bs (by simp)
      have hrest : ∀ bs2 ∈ rest, ∀ b ∈ bs2, b < 256 := by
        intro bs2 hm
        exact h bs2 (by simp [hm])
      rw [List.map_cons, List.foldlM_cons, strictStep_dataURI st bs hbs]
      show (rest.map (fun bs2 => imagePartOf (dataURI bs2))).foldlM strictStep (st.1, bs) =
        Except.ok (st.1, (bs :: rest).getLastD st.2)
      rw [ih (st.1, bs) hrest, List.getLastD_cons]

/-! ### Strict-extractor error lemmas -/

/-- A part that makes the strict extractor abort: an `image_url` part whose
URL is a `data:image/` URI with a `base64,` marker and an undecodable
payload. -/
def badB64Part (p : ContentPart) : Prop :=
  p.type = "image_url" ∧
    ∃ ip, p.imageURL = some ip ∧
      ("data:image/").data.isPrefixOf ip.url.data = true ∧
      ∃ raw, stripB64 ip.url = some raw ∧ decodeB64Str raw = none

theorem strictStep_badB64 (st : String × List Nat) (p : ContentPart)
    (h : badB64Part p) : strictStep st p = Except.error "invalid base64 image" := by
  obtain ⟨ht, ip, hip, hpre, raw, hraw, hdec⟩ := h
  simp [strictStep, ht, hip, hpre, hraw, hdec]

theorem foldParts_err_of_mem (parts : List ContentPart) (p : ContentPart)
    (hm : p ∈ parts) (hbad : badB64Part p) (st : String × List Nat) :
    ∃ e, parts.foldlM strictStep st = Except.error e := by
  induction parts generalizing st with
  | nil => cases hm
  | cons q rest ih =>
      rw [List.foldlM_cons]
      match hq : strictStep st q with
      | Except.error e => exact ⟨e, rfl⟩
      | Except.ok st1 =>
          rcases List.mem_cons.mp hm with heq | hmem
          · rw [heq] at hbad
            rw [strictStep_badB64 st q hbad] at hq
            cases hq
          · obtain ⟨e, he⟩ := ih hmem st1
            refine ⟨e, ?_⟩
            show rest.foldlM strictStep st1 = Except.error e
            exact he

theorem foldMsgs_err_of_mem (msgs : List Message) (msg : Message)
    (hm : msg ∈ msgs) (hrole : msg.role = "user") (p : ContentPart)
    (hp : p ∈ msg.content) (hbad : badB64Part p) (st : String × List Nat) :
    ∃ e, msgs.foldlM strictMsg st = Except.error e := by
  induction msgs generalizing st with
  | nil => cases hm
  | cons m ms ih =>
      rw [List.foldlM_cons]
      match hq : strictMsg st m with
      | Except.error e => exact ⟨e, rfl⟩
      | Except.ok st1 =>
          rcases List.mem_cons.mp hm with heq | hmem
          · rw [heq] at hrole hp
            unfold strictMsg at hq
            rw [if_pos hrole] at hq
            obtain ⟨e, he⟩ := foldParts_err_of_mem m.content p hp hbad st
            rw [he] at hq
            cases hq
          · obtain ⟨e, he⟩ := ih hmem st1
            refine ⟨e, ?_⟩
            show ms.foldlM strictMsg st1 = Except.error e
            exact he

/-- When any user message contains an aborting part, the whole strict
extraction returns an error with empty prompt and no image bytes. -/
theorem extractStrict_err (msgs : List Message) (msg : Message)
    (hm : msg ∈ msgs) (hrole : msg.role = "user") (p : ContentPart)
    (hp : p ∈ msg.content) (hbad : badB64Part p) :
    ∃ e, extractStrict msgs = { prompt := "", imageData := [], err := some e } := by
  obtain ⟨e, he⟩ := foldMsgs_err_of_mem msgs msg hm hrole p hp hbad ("", [])
  refine ⟨e, ?_⟩
  unfold extractStrict
  rw [he]

/-! ### Lenient-extractor lemmas -/

theorem lenientPart_lastText (sc : String → List String) (r : String)
    (st : LenState) (p : ContentPart) :
    (lenientPart sc r st p).lastText =
      if p.type = "text" ∧ r = "user" then p.text else st.lastText := by
  unfold lenientPart
  repeat' split
  all_goals try simp_all
  all_goals (split <;> rfl)

/-- The spec-side fold computing the text of the most recent text part of a
user-role message (empty when there is none), starting from a given
accumulator. -/
def lastUserTextFrom (acc : String) (msgs : List Message) : String :=
  msgs.foldl
    (fun a m => m.content.foldl
      (fun a2 p => if p.type = "text" ∧ m.role = "user" then p.text else a2) a)
    acc

/-- The text of the most recent text part carried by a user-role message,
the amended reading of the lenient variant's last-seen-text rule. -/
def lastUserText (msgs : List Message) : String := lastUserTextFrom "" msgs

theorem scanParts_lastText (sc : String → List String) (r : String)
    (parts : List ContentPart) (st : LenState) :
    (parts.foldl (lenientPart sc r) st).lastText =
      parts.foldl (fun a p => if p.type = "text" ∧ r = "user" then p.text else a)
        st.lastText := by
  induction parts generalizing st with
  | nil => rfl
  | cons p rest ih =>
      rw [List.foldl_cons, List.foldl_cons, ih, lenientPart_lastText]

/-- The scan phase's `lastText` is the spec-side last-user-text fold. -/
theorem lenScan_lastText (sc : String → List String) (msgs : List Message) :
    (lenScan sc msgs).lastText = lastUserText msgs := by
  unfold lenScan lastUserText
  have hgen : ∀ (ms : List Message) (st : LenState),
      ((ms.foldl (fun st2 m => m.content.foldl (lenientPart sc m.role) st2) st).lastText) =
        lastUserTextFrom st.lastText ms := by
    intro ms
    induction ms with
    | nil => intro st; rfl
    | cons m rest ih =>
        intro st
        rw [List.foldl_cons]
        unfold lastUserTextFrom
        rw [List.foldl_cons]
        have hih := ih (m.content.foldl (lenientPart sc m.role) st)
        unfold lastUserTextFrom at hih
        rw [hih, scanParts_lastText]
  exact hgen msgs { lastText := "", lastImageData := [], lastImageURL := "" }

/-- Every branch of the fetch phase returns the trimmed `lastText` as the
prompt. -/
theorem lenientFinish_prompt (ps : String → Option String) (f : String → FetchOutcome)
    (st : LenState) : (lenientFinish ps f st).prompt = trimSpace st.lastText := by
  unfold lenientFinish
  repeat' split
  all_goals rfl

/-- Without a candidate URL the fetch phase changes nothing and reports no
error. -/
theorem lenientFinish_noURL (ps : String → Option String) (f : String → FetchOutcome)
    (st : LenState) (h : st.lastImageURL = "") :
    lenientFinish ps f st =
      { prompt := trimSpace st.lastText, imageData := st.lastImageData, err := none } := by
  unfold lenientFinish
  rw [if_neg (fun hx => hx.2 h)]

/-- The lenient prompt is always the trimmed last user text. -/
theorem extractLenient_prompt (sc : String → List String) (ps : String → Option String)
    (f : String → FetchOutcome) (msgs : List Message) :
    (extractLenient sc ps f msgs).prompt = trimSpace (lastUserText msgs) := by
  unfold extractLenient
  rw [lenientFinish_prompt, lenScan_lastText]

/-- A malformed inline base64 payload leaves the lenient scan state
unchanged. -/
theorem lenientPart_badB64 (sc : String → List String) (r : String)
    (st : LenState) (p : ContentPart) (h : badB64Part p) :
    lenientPart sc r st p = st := by
  obtain ⟨ht, ip, hip, hpre, raw, hraw, hdec⟩ := h
  simp [lenientPart, ht, hip, hpre, hraw, hdec]

theorem foldParts_skip (sc : String → List String) (r : String)
    (ps1 ps2 : List ContentPart) (p : ContentPart)
    (hskip : ∀ st : LenState, lenientPart sc r st p = st) (st : LenState) :
    (ps1 ++ p :: ps2).foldl (lenientPart sc r) st =
      (ps1 ++ ps2).foldl (lenientPart sc r) st := by
  rw [List.foldl_append, List.foldl_append, List.foldl_cons,
    hskip (ps1.foldl (lenientPart sc r) st)]

/-- Inserting a skipped part into any message leaves the whole lenient scan
unchanged. -/
theorem lenScan_insert_skip (sc : String → List String) (r : String)
    (ms1 ms2 : List Message) (ps1 ps2 : List ContentPart) (p : ContentPart)
    (hskip : ∀ st : LenState, lenientPart sc r st p = st) :
    lenScan sc (ms1 ++ { role := r, content := ps1 ++ p :: ps2 } :: ms2) =
      lenScan sc (ms1 ++ { role := r, content := ps1 ++ ps2 } :: ms2) := by
  unfold lenScan
  rw [List.foldl_append, List.foldl_append, List.foldl_cons, List.foldl_cons]
  simp only []
  rw [foldParts_skip sc r ps1 ps2 p hskip]

/-! ### Fetch-failure lemma -/

/-- When the scan found no inline bytes but a candidate URL, the URL parses
with a non-empty scheme, and the fetch fails by transport error or by a
non-200 status, the fetch phase reports an error, keeps no image bytes and
still returns the trimmed prompt. -/
theorem lenientFinish_fetchFail (ps : String → Option String) (f : String → FetchOutcome)
    (st : LenState) (sch : String)
    (h0 : st.lastImageData = []) (h1 : st.lastImageURL ≠ "")
    (hps : ps (finalFetchURL st.lastImageURL) = some sch) (hsch : sch ≠ "")
    (hf : (∃ m, f (finalFetchURL st.lastImageURL) = FetchOutcome.netErr m) ∨
      (∃ c t b, f (finalFetchURL st.lastImageURL) = FetchOutcome.httpResp c t b ∧ c ≠ 200)) :
    (lenientFinish ps f st).err.isSome = true ∧
      (lenientFinish ps f st).imageData = [] ∧
      (lenientFinish ps f st).prompt = trimSpace st.lastText := by
  unfold lenientFinish
  have hcond : st.lastImageData.length = 0 ∧ st.lastImageURL ≠ "" := by
    rw [h0]
    exact ⟨rfl, h1⟩
  rw [if_pos hcond]
  simp only [hps]
  rw [if_pos hsch]
  rcases hf with ⟨m, hm⟩ | ⟨c, t, b, hr, hc⟩
  · simp [hm]
  · simp [hr, hc]

/-! ### Normalization lemmas -/

theorem normalizeContent_str (s : String) :
    normalizeContent (some (Json.str s)) =
      Except.ok [{ type := "text", text := s, imageURL := none }] := rfl

theorem normalizeContent_of_parts (j : Json) (parts : List ContentPart)
    (h : decodeParts j = some parts) :
    normalizeContent (some j) = Except.ok parts := by
  simp only [normalizeContent, h]

theorem decodePartsList_length (es : List Json) (ps : List ContentPart)
    (h : decodePartsList es = some ps) : ps.length = es.length := by
  induction es generalizing ps with
  | nil =>
      cases h
      rfl
  | cons j js ih =>
      unfold decodePartsList at h
      match hj : decodeContentPart j, hjs : decodePartsList js with
      | some p, some ps2 =>
          rw [hj, hjs] at h
          cases h
          simp [ih ps2 hjs]
      | some p, none => rw [hj, hjs] at h; cases h
      | none, some ps2 => rw [hj, hjs] at h; cases h
      | none, none => rw [hj, hjs] at h; cases h

/-- JSON encoding of an `ImagePart`, the shape a structured client sends. -/
def encodeImagePart (ip : ImagePart) : Json := Json.obj [("url", Json.str ip.url)]

/-- JSON encoding of a `ContentPart` as a typed part object. -/
def encodeContentPart (p : ContentPart) : Json :=
  Json.obj ([("type", Json.str p.type), ("text", Json.str p.text)] ++
    (match p.imageURL with
     | none => []
     | some ip => [("image_url", encodeImagePart ip)]))

theorem decode_encode_part (p : ContentPart) :
    decodeContentPart (encodeContentPart p) = some p := by
  obtain ⟨t, x, im⟩ := p
  match im with
  | none =>
      simp [encodeContentPart, decodeContentPart, lookupLast, decodeStr, encodeImagePart]
  | some ip =>
      obtain ⟨u⟩ := ip
      simp [encodeContentPart, decodeContentPart, lookupLast, decodeStr, encodeImagePart,
        decodeImageOpt]

theorem decodePartsList_encode (parts : List ContentPart) :
    decodePartsList (parts.map encodeContentPart) = some parts := by
  induction parts with
  | nil => rfl
  | cons p rest ih =>
      rw [List.map_cons]
      unfold decodePartsList
      rw [decode_encode_part, ih]

/-- Bytes-preserving image step for the lenient scan: a decodable data URI
overwrites `lastImageData` and touches nothing else. -/
theorem lenientPart_dataURI (sc : String → List String) (r : String)
    (st : LenState) (bs : List Nat) (h : ∀ b ∈ bs, b < 256) :
    lenientPart sc r st (imagePartOf (dataURI bs)) =
      { st with lastImageData := bs } := by
  have hpre := dataURI_pre (encodeToStr bs)
  have hstrip := dataURI_strip (encodeToStr bs)
  have hdec := decodeB64Str_encodeToStr bs h
  simp only [lenientPart, imagePartOf, dataURI] at hpre hstrip ⊢
  simp [hpre, hstrip, hdec]

/-! ### Claim theorems -/

/-- Claim C1, counterexample: the claim says that in the lenient variant
text parts from any role update the last seen text, so that with messages
`user: "cat"` then `assistant: "dog"` the prompt would be the trimmed text
of the most recent text part, `"dog"`; the code instead keeps `"cat"`,
because `lastText` is only assigned under `msg.Role == "user"`
(`src/main.go` line 101). -/
theorem claim1_counterexample :
    (extractLenient (fun _ => []) (fun _ => none) (fun _ => FetchOutcome.netErr "x")
      [{ role := "user", content := [{ type := "text", text := "cat", imageURL := none }] },
       { role := "assistant", content := [{ type := "text", text := "dog", imageURL := none }] }]).prompt =
      "cat" ∧
    (extractLenient (fun _ => []) (fun _ => none) (fun _ => FetchOutcome.netErr "x")
      [{ role := "user", content := [{ type := "text", text := "cat", imageURL := none }] },
       { role := "assistant", content := [{ type := "text", text := "dog", imageURL := none }] }]).prompt ≠
      trimSpace "dog" := by
  constructor
  · rfl
  · intro h
    cases h

/-- Claim C1, amended: in the lenient variant only text parts of user-role
messages update the last seen text; for every message sequence (and any
regex-scan, URL-parse and fetch behaviour) the returned prompt is the
trimmed text of the most recent text part carried by a user-role message. -/
theorem claim1_theorem (sc : String → List String) (ps : String → Option String)
    (f : String → FetchOutcome) (msgs : List Message) :
    (extractLenient sc ps f msgs).prompt = trimSpace (lastUserText msgs) :=
  extractLenient_prompt sc ps f msgs

/-- Claim C2, counterexample: normalization accepts a message whose
content is the empty JSON list and produces an empty content list, so the
content list is not always non-empty after normalization. -/
theorem claim2_counterexample :
    normalizeContent (some (Json.arr [])) = Except.ok ([] : List ContentPart) ∧
      ¬(∀ j parts, normalizeContent (some j) = Except.ok parts → parts ≠ []) := by
  refine ⟨rfl, fun h => h (Json.arr []) [] rfl rfl⟩

/-- Claim C2, amended: a bare JSON string content is coerced into exactly
one text part, but the normalized content list is empty exactly when the
raw content was JSON `null` or the empty list `[]`; for every other
accepted shape the list is non-empty. -/
theorem claim2_theorem :
    (∀ s, normalizeContent (some (Json.str s)) =
      Except.ok [{ type := "text", text := s, imageURL := none }]) ∧
    (∀ j parts, normalizeContent (some j) = Except.ok parts →
      (parts = [] ↔ j = Json.null ∨ j = Json.arr [])) := by
  refine ⟨normalizeContent_str, fun j parts h => ?_⟩
  cases j with
  | null =>
      simp only [normalizeContent, decodeParts] at h
      cases h
      simp
  | bool b => simp [normalizeContent, decodeParts, decodeStr] at h
  | num n => simp [normalizeContent, decodeParts, decodeStr] at h
  | str s =>
      simp only [normalizeContent, decodeParts, decodeStr] at h
      cases h
      simp
  | arr es =>
      match hm : decodePartsList es with
      | some ps =>
          rw [normalizeContent_of_parts (Json.arr es) ps (by simp [decodeParts, hm])] at h
          cases h
          have hlen := decodePartsList_length es parts hm
          constructor
          · intro hp
            right
            subst hp
            simp at hlen
            simp [List.length_eq_zero.mp hlen.symm]
          · rintro (hc | hc)
            · cases hc
            · cases hc
              cases hm
              rfl
      | none =>
          simp [normalizeContent, decodeParts, hm, decodeStr] at h
  | obj fs => simp [normalizeContent, decodeParts, decodeStr] at h

/-- Claim C2, witness: at the concrete inputs, the string coercion and the
emptiness characterization both hold. -/
theorem claim2_witness :
    normalizeContent (some (Json.str "hi")) =
      Except.ok [{ type := "text", text := "hi", imageURL := none }] ∧
    (([] : List ContentPart) = [] ↔ Json.arr [] = Json.null ∨ Json.arr [] = Json.arr []) :=
  ⟨claim2_theorem.1 "hi", claim2_theorem.2 (Json.arr []) [] rfl⟩

/-- Claim C3: normalization first attempts the structured-list decoding and
returns its result on success; only when it fails is plain-string decoding
attempted, wrapping the string as one text part; when both fail the result
is the `MalformedContent` error and no message value. -/
theorem claim3_theorem (j : Json) :
    (∀ parts, decodeParts j = some parts → normalizeContent (some j) = Except.ok parts) ∧
    (decodeParts j = none → ∀ t, decodeStr j = some t →
      normalizeContent (some j) =
        Except.ok [{ type := "text", text := t, imageURL := none }]) ∧
    (decodeParts j = none → decodeStr j = none →
      normalizeContent (some j) = Except.error malformedContentMsg) := by
  refine ⟨fun parts h => normalizeContent_of_parts j parts h,
    fun h1 t h2 => ?_, fun h1 h2 => ?_⟩
  · simp only [normalizeContent, h1, h2]
  · simp only [normalizeContent, h1, h2]

/-- Claim C3, witness: each of the three branches at a concrete content
value. -/
theorem claim3_witness :
    normalizeContent (some (Json.arr [])) = Except.ok [] ∧
    normalizeContent (some (Json.str "hi")) =
      Except.ok [{ type := "text", text := "hi", imageURL := none }] ∧
    normalizeContent (some (Json.bool true)) = Except.error malformedContentMsg :=
  ⟨(claim3_theorem (Json.arr [])).1 [] rfl,
   (claim3_theorem (Json.str "hi")).2.1 rfl "hi" rfl,
   (claim3_theorem (Json.bool true)).2.2 rfl rfl⟩

/-- Claim C4: whenever strict extraction succeeds, the prompt is the
trimmed space-separated concatenation of the text parts of the user-role
messages, in order; non-user messages contribute nothing. -/
theorem claim4_theorem (msgs : List Message) (h : (extractStrict msgs).err = none) :
    (extractStrict msgs).prompt = trimSpace (spaceJoin (userTexts msgs)) := by
  unfold extractStrict at h ⊢
  match hm : msgs.foldlM strictMsg ("", ([] : List Nat)) with
  | Except.ok st =>
      simp only [hm]
      exact extractStrict_prompt msgs st hm
  | Except.error e =>
      rw [hm] at h
      simp at h

/-- Claim C4, witness: a concrete two-message request where the assistant
text is ignored and the user texts are joined by a space. -/
theorem claim4_witness :
    (extractStrict
      [{ role := "user",
         content := [{ type := "text", text := "a red", imageURL := none },
           { type := "text", text := "cat", imageURL := none }] },
       { role := "assistant",
         content := [{ type := "text", text := "zzz", imageURL := none }] }]).prompt =
      trimSpace (spaceJoin (userTexts
        [{ role := "user",
           content := [{ type := "text", text := "a red", imageURL := none },
             { type := "text", text := "cat", imageURL := none }] },
         { role := "assistant",
           content := [{ type := "text", text := "zzz", imageURL := none }] }])) :=
  claim4_theorem _ rfl

/-- Strict extraction of a user message holding data-URI image parts only:
the last payload wins, the prompt stays empty, no error occurs. -/
theorem extractStrict_images (earlier : List (List Nat)) (lastB : List Nat)
    (hE : ∀ bs ∈ earlier, ∀ b ∈ bs, b < 256) (hL : ∀ b ∈ lastB, b < 256) :
    extractStrict
      [{ role := "user",
         content := (earlier.map (fun bs => imagePartOf (dataURI bs))) ++
           [imagePartOf (dataURI lastB)] }] =
      { prompt := "", imageData := lastB, err := none } := by
  have hparts :
      (((earlier.map (fun bs => imagePartOf (dataURI bs))) ++
        [imagePartOf (dataURI lastB)]).foldlM strictStep
          (("", []) : String × List Nat)) = Except.ok ("", lastB) := by
    rw [List.foldlM_append, foldImgs_last earlier ("", []) hE]
    show ([imagePartOf (dataURI lastB)].foldlM strictStep
      (("" : String), earlier.getLastD [])) = Except.ok ("", lastB)
    rw [List.foldlM_cons, strictStep_dataURI _ lastB hL]
    rfl
  have hall : (([{ role := "user",
                   content := (earlier.map (fun bs => imagePartOf (dataURI bs))) ++
                     [imagePartOf (dataURI lastB)] }] : List Message).foldlM strictMsg
        (("", []) : String × List Nat)) = Except.ok ("", lastB) := by
    rw [List.foldlM_cons]
    show (strictMsg ("", [])
      { role := "user",
        content := (earlier.map (fun bs => imagePartOf (dataURI bs))) ++
          [imagePartOf (dataURI lastB)] } >>= fun s => Except.ok s) = Except.ok ("", lastB)
    unfold strictMsg
    rw [if_pos rfl]
    show ((((earlier.map (fun bs => imagePartOf (dataURI bs))) ++
      [imagePartOf (dataURI lastB)]).foldlM strictStep
        (("", []) : String × List Nat)) >>= fun s => Except.ok s) = Except.ok ("", lastB)
    rw [hparts]
    rfl
  unfold extractStrict
  simp only [hall]
  rfl

/-- Bytes an `image_url` part contributes in the strict loop: `some data`
exactly when the part carries a `data:image/` URI with a `base64,` marker
whose payload decodes to `data`; `none` when the part is skipped (and the
undecodable-payload case, which aborts the loop instead, also maps to
`none` — it never reaches a successful extraction). -/
def validImageDecode (p : ContentPart) : Option (List Nat) :=
  if p.type = "image_url" then
    match p.imageURL with
    | none => none
    | some ip =>
        if ("data:image/").data.isPrefixOf ip.url.data then
          match stripB64 ip.url with
          | none => none
          | some raw => decodeB64Str raw
        else none
  else none

/-- Content parts of the user-role messages, in the order the strict loop
encounters them. -/
def userParts : List Message → List ContentPart
  | [] => []
  | m :: ms => (if m.role = "user" then m.content else []) ++ userParts ms

theorem getLastD_append {α : Type} (a b : List α) (d : α) :
    (a ++ b).getLastD d = b.getLastD (a.getLastD d) := by
  induction a generalizing d with
  | nil => rfl
  | cons x a2 ih =>
      rw [List.cons_append, List.getLastD_cons, List.getLastD_cons, ih]

theorem strictStep_ok_image (st : String × List Nat) (p : ContentPart)
    (st2 : String × List Nat) (h : strictStep st p = Except.ok st2) :
    st2.2 = (validImageDecode p).getD st.2 := by
  unfold strictStep at h
  unfold validImageDecode
  repeat' split at h
  all_goals try cases h
  all_goals simp [*]

theorem foldParts_image (parts : List ContentPart) (st st2 : String × List Nat)
    (h : parts.foldlM strictStep st = Except.ok st2) :
    st2.2 = (parts.filterMap validImageDecode).getLastD st.2 := by
  induction parts generalizing st with
  | nil =>
      simp only [List.foldlM_nil] at h
      cases h
      rfl
  | cons p rest ih =>
      rw [List.foldlM_cons] at h
      match hs : strictStep st p with
      | Except.error e => rw [hs] at h; cases h
      | Except.ok st1 =>
          rw [hs] at h
          have hbind : (Except.ok st1 >>= fun b => rest.foldlM strictStep b) =
              rest.foldlM strictStep st1 := rfl
          rw [hbind] at h
          have hrec := ih st1 h
          have hp := strictStep_ok_image st p st1 hs
          cases hv : validImageDecode p with
          | none =>
              rw [hv] at hp
              simp only [Option.getD] at hp
              simp only [List.filterMap_cons, hv]
              rw [hrec, hp]
          | some d =>
              rw [hv] at hp
              simp only [Option.getD] at hp
              simp only [List.filterMap_cons, hv]
              rw [hrec, hp, List.getLastD_cons]

theorem foldMsgs_image (msgs : List Message) (st st2 : String × List Nat)
    (h : msgs.foldlM strictMsg st = Except.ok st2) :
    st2.2 = ((userParts msgs).filterMap validImageDecode).getLastD st.2 := by
  induction msgs generalizing st with
  | nil =>
      simp only [List.foldlM_nil] at h
      cases h
      rfl
  | cons m ms ih =>
      rw [List.foldlM_cons] at h
      match hs : strictMsg st m with
      | Except.error e => rw [hs] at h; cases h
      | Except.ok st1 =>
          rw [hs] at h
          have hbind : (Except.ok st1 >>= fun b => ms.foldlM strictMsg b) =
              ms.foldlM strictMsg st1 := rfl
          rw [hbind] at h
          have hrec := ih st1 h
          unfold strictMsg at hs
          by_cases hr : m.role = "user"
          · rw [if_pos hr] at hs
            have hp := foldParts_image m.content st st1 hs
            rw [hrec, hp]
            simp only [userParts, if_pos hr]
            rw [List.filterMap_append, getLastD_append]
          · rw [if_neg hr] at hs
            cases hs
            rw [hrec]
            simp only [userParts, if_neg hr, List.nil_append]

/-- Claim C5: in the strict variant, whenever extraction succeeds, the
extracted image bytes equal the decoding of the last `image_url` part with
a valid base64 data URI among the user messages' parts — for any request
shape: interleaved text parts, several messages, any `data:image/...`
media type, any decodable payload.  In particular, with two or more such
parts the later payloads overwrite the earlier ones: whenever the in-order
list of decoded payloads ends in `d`, the extracted bytes are exactly
`d`. -/
theorem claim5_theorem (msgs : List Message) (h : (extractStrict msgs).err = none) :
    (extractStrict msgs).imageData =
      ((userParts msgs).filterMap validImageDecode).getLastD [] ∧
    ∀ ds d, (userParts msgs).filterMap validImageDecode = ds ++ [d] →
      (extractStrict msgs).imageData = d := by
  unfold extractStrict at h ⊢
  match hm : msgs.foldlM strictMsg ("", ([] : List Nat)) with
  | Except.ok st =>
      simp only [hm]
      have hi := foldMsgs_image msgs ("", []) st hm
      constructor
      · exact hi
      · intro ds d hds
        rw [hi, hds, List.getLastD_concat]
  | Except.error e =>
      rw [hm] at h
      simp at h

/-- Request used to witness claim C5: interleaved text, a non-canonical
`QR==` jpeg payload, an assistant image that the strict loop never reads,
and a final `AAEC` png payload. -/
def c5Msgs : List Message :=
  [{ role := "user",
     content := [{ type := "text", text := "edit this", imageURL := none },
       { type := "image_url", text := "",
         imageURL := some { url := "data:image/jpeg;base64,QR==" } },
       { type := "text", text := "more", imageURL := none }] },
   { role := "assistant",
     content := [{ type := "image_url", text := "",
                   imageURL := some { url := "data:image/png;base64,QUJD" } }] },
   { role := "user",
     content := [{ type := "image_url", text := "",
                   imageURL := some { url := "data:image/png;base64,AAEC" } }] }]

/-- Claim C5, witness: on `c5Msgs` the extracted bytes are the decoding
`[0, 1, 2]` of the last valid data-URI part only; the earlier `QR==`
payload (decoding to `[65]`) is overwritten. -/
theorem claim5_witness :
    (extractStrict c5Msgs).imageData =
      ((userParts c5Msgs).filterMap validImageDecode).getLastD [] ∧
    (extractStrict c5Msgs).imageData = [0, 1, 2] := by
  refine ⟨(claim5_theorem c5Msgs rfl).1, (claim5_theorem c5Msgs rfl).2 [[65]] [0, 1, 2] rfl⟩

/-- Claim C6: a data-URI image part with an undecodable base64 payload
aborts the strict extraction (error, empty prompt, no bytes) whenever it
sits in a user message; the lenient variant instead skips it: the scan step
leaves the state unchanged, the whole extraction is unchanged by inserting
such a part, and when the scan yields no candidate URL the extraction ends
without error carrying the gathered prompt. -/
theorem claim6_theorem :
    (∀ msgs msg p, msg ∈ msgs → msg.role = "user" → p ∈ msg.content → badB64Part p →
      ∃ e, extractStrict msgs = { prompt := "", imageData := [], err := some e }) ∧
    (∀ sc r st p, badB64Part p → lenientPart sc r st p = st) ∧
    (∀ sc ps f ms1 ms2 r ps1 ps2 p, badB64Part p →
      extractLenient sc ps f (ms1 ++ { role := r, content := ps1 ++ p :: ps2 } :: ms2) =
        extractLenient sc ps f (ms1 ++ { role := r, content := ps1 ++ ps2 } :: ms2)) ∧
    (∀ sc ps f msgs, (lenScan sc msgs).lastImageURL = "" →
      (extractLenient sc ps f msgs).err = none ∧
      (extractLenient sc ps f msgs).prompt = trimSpace (lastUserText msgs)) := by
  refine ⟨fun msgs msg p hm hr hp hbad => extractStrict_err msgs msg hm hr p hp hbad,
    fun sc r st p hbad => lenientPart_badB64 sc r st p hbad,
    fun sc ps f ms1 ms2 r ps1 ps2 p hbad => ?_,
    fun sc ps f msgs hurl => ?_⟩
  · unfold extractLenient
    rw [lenScan_insert_skip sc r ms1 ms2 ps1 ps2 p
      (fun st => lenientPart_badB64 sc r st p hbad)]
  · unfold extractLenient
    rw [lenientFinish_noURL ps f _ hurl]
    exact ⟨rfl, by simp only [lenScan_lastText]⟩

/-- Claim C6, witness: the concrete part carrying
`data:image/png;base64,####` aborts the strict variant and is skipped by
the lenient one. -/
theorem claim6_witness :
    (∃ e, extractStrict
        [{ role := "user",
           content := [{ type := "image_url", text := "",
                         imageURL := some { url := "data:image/png;base64,####" } }] }] =
        { prompt := "", imageData := [], err := some e }) ∧
    lenientPart (fun _ => []) "user"
      { lastText := "hi", lastImageData := [], lastImageURL := "" }
      { type := "image_url", text := "",
        imageURL := some { url := "data:image/png;base64,####" } } =
      { lastText := "hi", lastImageData := [], lastImageURL := "" } ∧
    extractLenient (fun _ => []) (fun _ => none) (fun _ => FetchOutcome.netErr "x")
      [{ role := "user",
         content := [{ type := "image_url", text := "",
                       imageURL := some { url := "data:image/png;base64,####" } },
           { type := "text", text := "hi", imageURL := none }] }] =
      extractLenient (fun _ => []) (fun _ => none) (fun _ => FetchOutcome.netErr "x")
        [{ role := "user", content := [{ type := "text", text := "hi", imageURL := none }] }] ∧
    (extractLenient (fun _ => []) (fun _ => none) (fun _ => FetchOutcome.netErr "x")
      [{ role := "user",
         content := [{ type := "text", text := "hi", imageURL := none }] }]).err = none := by
  have hbad : badB64Part
      { type := "image_url", text := "",
        imageURL := some { url := "data:image/png;base64,####" } } :=
    ⟨rfl, { url := "data:image/png;base64,####" }, rfl, rfl, "####", rfl, rfl⟩
  refine ⟨claim6_theorem.1
      [{ role := "user",
         content := [{ type := "image_url", text := "",
                       imageURL := some { url := "data:image/png;base64,####" } }] }]
      { role := "user",
        content := [{ type := "image_url", text := "",
                      imageURL := some { url := "data:image/png;base64,####" } }] }
      { type := "image_url", text := "",
        imageURL := some { url := "data:image/png;base64,####" } }
      (by simp) rfl (by simp) hbad,
    claim6_theorem.2.1 _ _ _ _ hbad,
    claim6_theorem.2.2.1 (fun _ => []) (fun _ => none) (fun _ => FetchOutcome.netErr "x")
      [] [] "user" [] [{ type := "text", text := "hi", imageURL := none }] _ hbad,
    (claim6_theorem.2.2.2 (fun _ => []) (fun _ => none) (fun _ => FetchOutcome.netErr "x")
      [{ role := "user", content := [{ type := "text", text := "hi", imageURL := none }] }]
      rfl).1⟩

/-- Claim C7: in the lenient variant, when the scan left no inline bytes
but a candidate URL, the URL parses with a scheme, and the fetch fails by
network error or non-200 status, extraction returns an error alongside the
trimmed gathered prompt, and the handler answers 400. -/
theorem claim7_theorem (sc : String → List String) (ps : String → Option String)
    (f : String → FetchOutcome) (msgs : List Message) (sch : String)
    (h0 : (lenScan sc msgs).lastImageData = [])
    (h1 : (lenScan sc msgs).lastImageURL ≠ "")
    (hps : ps (finalFetchURL (lenScan sc msgs).lastImageURL) = some sch)
    (hsch : sch ≠ "")
    (hf : (∃ m, f (finalFetchURL (lenScan sc msgs).lastImageURL) = FetchOutcome.netErr m) ∨
      (∃ c t b, f (finalFetchURL (lenScan sc msgs).lastImageURL) =
        FetchOutcome.httpResp c t b ∧ c ≠ 200)) :
    (extractLenient sc ps f msgs).err.isSome = true ∧
    (extractLenient sc ps f msgs).prompt = trimSpace (lastUserText msgs) ∧
    (extractLenient sc ps f msgs).imageData = [] ∧
    handleExtraction (extractLenient sc ps f msgs) = some 400 := by
  have hff := lenientFinish_fetchFail ps f (lenScan sc msgs) sch h0 h1 hps hsch hf
  have hprompt : (extractLenient sc ps f msgs).prompt = trimSpace (lastUserText msgs) :=
    extractLenient_prompt sc ps f msgs
  refine ⟨hff.1, hprompt, hff.2.1, ?_⟩
  obtain ⟨e, he⟩ := Option.isSome_iff_exists.mp hff.1
  show handleExtraction (lenientFinish ps f (lenScan sc msgs)) = some 400
  simp [handleExtraction, he]

/-- Claim C7, witness: a concrete `.png` image reference whose fetch
breaks with a network error yields an error, the gathered prompt, no bytes
and HTTP 400. -/
theorem claim7_witness :
    (extractLenient (fun _ => []) (fun _ => some "https")
      (fun _ => FetchOutcome.netErr "boom")
      [{ role := "user",
         content := [{ type := "text", text := "grow", imageURL := none },
           { type := "image_url", text := "",
             imageURL := some { url := "https://h/x.png" } }] }]).err.isSome = true ∧
    (extractLenient (fun _ => []) (fun _ => some "https")
      (fun _ => FetchOutcome.netErr "boom")
      [{ role := "user",
         content := [{ type := "text", text := "grow", imageURL := none },
           { type := "image_url", text := "",
             imageURL := some { url := "https://h/x.png" } }] }]).prompt =
      trimSpace (lastUserText
        [{ role := "user",
           content := [{ type := "text", text := "grow", imageURL := none },
             { type := "image_url", text := "",
               imageURL := some { url := "https://h/x.png" } }] }]) ∧
    (extractLenient (fun _ => []) (fun _ => some "https")
      (fun _ => FetchOutcome.netErr "boom")
      [{ role := "user",
         content := [{ type := "text", text := "grow", imageURL := none },
           { type := "image_url", text := "",
             imageURL := some { url := "https://h/x.png" } }] }]).imageData = [] ∧
    handleExtraction (extractLenient (fun _ => []) (fun _ => some "https")
      (fun _ => FetchOutcome.netErr "boom")
      [{ role := "user",
         content := [{ type := "text", text := "grow", imageURL := none },
           { type := "image_url", text := "",
             imageURL := some { url := "https://h/x.png" } }] }]) = some 400 :=
  claim7_theorem (fun _ => []) (fun _ => some "https")
    (fun _ => FetchOutcome.netErr "boom")
    [{ role := "user",
       content := [{ type := "text", text := "grow", imageURL := none },
         { type := "image_url", text := "",
           imageURL := some { url := "https://h/x.png" } }] }]
    "https" rfl (by decide) rfl (by decide) (Or.inl ⟨"boom", rfl⟩)

/-- Claim C8: encoding any byte sequence as a base64 `data:image/...` URI
and extracting a message carrying it as an `image_url` part reproduces the
original bytes exactly, in both the strict and the lenient variant. -/
theorem claim8_theorem (bs : List Nat) (h : ∀ b ∈ bs, b < 256)
    (sc : String → List String) (ps : String → Option String)
    (f : String → FetchOutcome) :
    extractStrict [{ role := "user", content := [imagePartOf (dataURI bs)] }] =
      { prompt := "", imageData := bs, err := none } ∧
    extractLenient sc ps f [{ role := "user", content := [imagePartOf (dataURI bs)] }] =
      { prompt := "", imageData := bs, err := none } := by
  constructor
  · exact extractStrict_images [] bs (by simp) h
  · unfold extractLenient
    have hscan : lenScan sc [{ role := "user", content := [imagePartOf (dataURI bs)] }] =
        lenientPart sc "user"
          { lastText := "", lastImageData := [], lastImageURL := "" }
          (imagePartOf (dataURI bs)) := rfl
    rw [hscan, lenientPart_dataURI sc "user" _ bs h]
    rw [lenientFinish_noURL ps f _ rfl]
    rfl

/-- Claim C8, witness: the bytes 65 66 67 survive the encode-then-extract
round trip in both variants. -/
theorem claim8_witness :
    extractStrict [{ role := "user", content := [imagePartOf (dataURI [65, 66, 67])] }] =
      { prompt := "", imageData := [65, 66, 67], err := none } ∧
    extractLenient (fun _ => []) (fun _ => none) (fun _ => FetchOutcome.netErr "x")
      [{ role := "user", content := [imagePartOf (dataURI [65, 66, 67])] }] =
      { prompt := "", imageData := [65, 66, 67], err := none } :=
  claim8_theorem [65, 66, 67] (by decide) (fun _ => []) (fun _ => none)
    (fun _ => FetchOutcome.netErr "x")

/-- Claim C9: a string-shaped content normalizes to exactly one text part
carrying that string; a decodable list of typed parts normalizes to exactly
the decoded parts, and encoding any part list as typed JSON objects and
normalizing reproduces the parts unchanged. -/
theorem claim9_theorem :
    (∀ s, normalizeContent (some (Json.str s)) =
      Except.ok [{ type := "text", text := s, imageURL := none }]) ∧
    (∀ j parts, decodeParts j = some parts →
      normalizeContent (some j) = Except.ok parts) ∧
    (∀ parts, normalizeContent (some (Json.arr (parts.map encodeContentPart))) =
      Except.ok parts) := by
  refine ⟨normalizeContent_str,
    fun j parts h => normalizeContent_of_parts j parts h, fun parts => ?_⟩
  apply normalizeContent_of_parts
  show decodePartsList (parts.map encodeContentPart) = some parts
  exact decodePartsList_encode parts

/-- Claim C9, witness: concrete string content and a concrete typed part
list are preserved. -/
theorem claim9_witness :
    normalizeContent (some (Json.str "hi")) =
      Except.ok [{ type := "text", text := "hi", imageURL := none }] ∧
    normalizeContent (some (Json.arr [])) = Except.ok [] ∧
    normalizeContent (some (Json.arr
      ([{ type := "text", text := "edit this", imageURL := none }].map encodeContentPart))) =
      Except.ok [{ type := "text", text := "edit this", imageURL := none }] :=
  ⟨claim9_theorem.1 "hi", claim9_theorem.2.1 (Json.arr []) [] rfl,
   claim9_theorem.2.2 [{ type := "text", text := "edit this", imageURL := none }]⟩

/-- Claim C10: an `image_url` part whose URL starts with `data:image/` but
has no `base64,` marker is skipped by both variants without error, leaving
the state — previously extracted image bytes included — unchanged. -/
theorem claim10_theorem (st : String × List Nat) (stL : LenState)
    (sc : String → List String) (r : String) (p : ContentPart) (ip : ImagePart)
    (ht : p.type = "image_url") (hip : p.imageURL = some ip)
    (hpre : ("data:image/").data.isPrefixOf ip.url.data = true)
    (hidx : indexOfSub ip.url.data ("base64,").data = none) :
    strictStep st p = Except.ok st ∧ lenientPart sc r stL p = stL := by
  have hstrip : stripB64 ip.url = none := by
    unfold stripB64
    rw [hidx]
    rfl
  constructor
  · simp [strictStep, ht, hip, hpre, hstrip]
  · simp [lenientPart, ht, hip, hpre, hstrip]

/-- Claim C10, witness: the concrete URL `data:image/png;nope` is skipped
by both variants, keeping previously extracted bytes. -/
theorem claim10_witness :
    strictStep ("x", [7])
      { type := "image_url", text := "",
        imageURL := some { url := "data:image/png;nope" } } =
      Except.ok ("x", [7]) ∧
    lenientPart (fun _ => []) "assistant"
      { lastText := "x", lastImageData := [7], lastImageURL := "u" }
      { type := "image_url", text := "",
        imageURL := some { url := "data:image/png;nope" } } =
      { lastText := "x", lastImageData := [7], lastImageURL := "u" } :=
  claim10_theorem ("x", [7])
    { lastText := "x", lastImageData := [7], lastImageURL := "u" }
    (fun _ => []) "assistant"
    { type := "image_url", text := "", imageURL := some { url := "data:image/png;nope" } }
    { url := "data:image/png;nope" } rfl rfl rfl rfl

end SDAdapter
